import Mathlib

/-!
Shallow embedding of the melonJS AABB class from src/physics/bounds.js.

Corner coordinates are rationals extended with plus and minus infinity
(`WithBot (WithTop ℚ)`), mirroring the JS doubles (infinities included,
NaN excluded) that the source manipulates.  Vertices and vectors consumed
by the API are finite points.  Every mutating method of the JS class is
embedded as a pure function from the receiver state to the new state.
-/

/-- A 2D vertex with finite rational coordinates, standing for the
point-like objects with numeric x/y fields consumed by the Bounds API. -/
structure Vec2 where
  x : ℚ
  y : ℚ
deriving DecidableEq, Repr

/-- A corner coordinate: a rational, or plus/minus infinity. -/
abbrev Coord : Type := WithBot (WithTop ℚ)

/-- Embed a finite rational as a corner coordinate. -/
def qc (q : ℚ) : Coord := ((q : WithTop ℚ) : Coord)

/-- A corner point of a bounds; coordinates may be infinite (sentinel). -/
structure XPoint where
  x : Coord
  y : Coord
deriving DecidableEq

/-- The Bounds data model: the min and max corner points. -/
structure Bounds where
  min : XPoint
  max : XPoint
deriving DecidableEq

namespace Bounds

/-- `setMinMax(minX, minY, maxX, maxY)`: unconditionally overwrites both
corners. -/
def setMinMax (_self : Bounds) (minX minY maxX maxY : Coord) : Bounds :=
  ⟨⟨minX, minY⟩, ⟨maxX, maxY⟩⟩

/-- `clear()`: resets to the empty sentinel state
(min = (+inf, +inf), max = (-inf, -inf)). -/
def clear (self : Bounds) : Bounds :=
  self.setMinMax ⊤ ⊤ ⊥ ⊥

/-- The state produced by the constructor when no vertices are given:
the infinite empty sentinel. -/
def empty : Bounds := ⟨⟨⊤, ⊤⟩, ⟨⊥, ⊥⟩⟩

/-- The `width` setter: `this.max.x = this.min.x + value`. -/
def setWidth (self : Bounds) (value : ℚ) : Bounds :=
  { self with max := { self.max with x := self.min.x + qc value } }

/-- The `height` setter: `this.max.y = this.min.y + value`. -/
def setHeight (self : Bounds) (value : ℚ) : Bounds :=
  { self with max := { self.max with y := self.min.y + qc value } }

/-- One iteration of the `add` loop body: the four independent `if`
statements updating `max.x`, `min.x`, `max.y`, `min.y`. -/
def addVertexStep (self : Bounds) (vertex : Vec2) : Bounds :=
  let b1 := if qc vertex.x > self.max.x then
      { self with max := { self.max with x := qc vertex.x } } else self
  let b2 := if qc vertex.x < b1.min.x then
      { b1 with min := { b1.min with x := qc vertex.x } } else b1
  let b3 := if qc vertex.y > b2.max.y then
      { b2 with max := { b2.max with y := qc vertex.y } } else b2
  let b4 := if qc vertex.y < b3.min.y then
      { b3 with min := { b3.min with y := qc vertex.y } } else b3
  b4

/-- `add(vertices, clear)`: optionally reset, then expand the bounds to
cover every vertex of the list. -/
def add (self : Bounds) (vertices : List Vec2) (clear : Bool) : Bounds :=
  let b := if clear = true then self.clear else self
  vertices.foldl addVertexStep b

/-- `update(vertices)`: `add(vertices, true)`. -/
def update (self : Bounds) (vertices : List Vec2) : Bounds :=
  self.add vertices true

/-- `addBounds(bounds, clear)`: optionally reset, then merge with another
bounds object.  The last branch reproduces the source exactly: it compares
`bounds.min.y` against `this.min.y` but assigns `bounds.max.y`. -/
def addBounds (self : Bounds) (bounds : Bounds) (clear : Bool) : Bounds :=
  let b0 := if clear = true then self.clear else self
  let b1 := if bounds.max.x > b0.max.x then
      { b0 with max := { b0.max with x := bounds.max.x } } else b0
  let b2 := if bounds.min.x < b1.min.x then
      { b1 with min := { b1.min with x := bounds.min.x } } else b1
  let b3 := if bounds.max.y > b2.max.y then
      { b2 with max := { b2.max with y := bounds.max.y } } else b2
  let b4 := if bounds.min.y < b3.min.y then
      { b3 with min := { b3.min with y := bounds.max.y } } else b3
  b4

/-- `contains(point)`: closed-interval membership test on both axes. -/
def contains (self : Bounds) (point : Vec2) : Bool :=
  decide (qc point.x ≥ self.min.x) && decide (qc point.x ≤ self.max.x)
    && decide (qc point.y ≥ self.min.y) && decide (qc point.y ≤ self.max.y)

/-- `overlaps(bounds)`: AABB-vs-AABB separating axis test with closed
intervals. -/
def overlaps (self : Bounds) (bounds : Bounds) : Bool :=
  decide (self.min.x ≤ bounds.max.x) && decide (self.max.x ≥ bounds.min.x)
    && decide (self.max.y ≥ bounds.min.y) && decide (self.min.y ≤ bounds.max.y)

/-- `translate(vector)`: shift both corners by the vector components. -/
def translate (self : Bounds) (vector : Vec2) : Bounds :=
  ⟨⟨self.min.x + qc vector.x, self.min.y + qc vector.y⟩,
   ⟨self.max.x + qc vector.x, self.max.y + qc vector.y⟩⟩

/-- Content inclusion: every point contained in `b` is contained in `c`. -/
def SubsetOf (b c : Bounds) : Prop :=
  ∀ p : Vec2, b.contains p = true → c.contains p = true

/-- `b2` extends `b` corner-wise (its min is no larger, its max no
smaller, on both axes). -/
def Ext (b b2 : Bounds) : Prop :=
  b2.min.x ≤ b.min.x ∧ b2.min.y ≤ b.min.y ∧
  b.max.x ≤ b2.max.x ∧ b.max.y ≤ b2.max.y

/-- The data-model invariant stated by the spec: a bounds is either the
empty sentinel, or has four finite corner coordinates with min ≤ max on
both axes. -/
def WF (b : Bounds) : Prop :=
  b = Bounds.empty ∨
    ((∃ q, b.min.x = qc q) ∧ (∃ q, b.min.y = qc q) ∧
     (∃ q, b.max.x = qc q) ∧ (∃ q, b.max.y = qc q) ∧
     b.min.x ≤ b.max.x ∧ b.min.y ≤ b.max.y)

/-- All four corner coordinates are finite. -/
def AllFinite (b : Bounds) : Prop :=
  (∃ q, b.min.x = qc q) ∧ (∃ q, b.min.y = qc q) ∧
  (∃ q, b.max.x = qc q) ∧ (∃ q, b.max.y = qc q)

end Bounds

/-! ### Basic facts about the coordinate embedding -/

theorem qc_add (a b : ℚ) : qc a + qc b = qc (a + b) := by
  simp [qc]

theorem qc_le_qc {a b : ℚ} : qc a ≤ qc b ↔ a ≤ b := by
  simp [qc]

theorem qc_lt_qc {a b : ℚ} : qc a < qc b ↔ a < b := by
  simp [qc]

theorem qc_inj {a b : ℚ} : qc a = qc b ↔ a = b := by
  simp [qc]

theorem bot_lt_qc (q : ℚ) : (⊥ : Coord) < qc q := WithBot.bot_lt_coe _

theorem qc_lt_top (q : ℚ) : qc q < (⊤ : Coord) := by
  rw [qc, ← WithBot.coe_top]
  exact WithBot.coe_lt_coe.2 (WithTop.coe_lt_top q)

theorem not_top_le_qc (q : ℚ) : ¬(⊤ : Coord) ≤ qc q :=
  not_le_of_lt (qc_lt_top q)

theorem not_qc_le_bot (q : ℚ) : ¬qc q ≤ (⊥ : Coord) :=
  not_le_of_lt (bot_lt_qc q)

theorem qc_ne_top (q : ℚ) : qc q ≠ (⊤ : Coord) :=
  ne_of_lt (qc_lt_top q)

theorem qc_ne_bot (q : ℚ) : qc q ≠ (⊥ : Coord) :=
  ne_of_gt (bot_lt_qc q)

theorem ite_lt_le_right (a b : Coord) : (if a < b then a else b) ≤ b := by
  split_ifs with h
  · exact le_of_lt h
  · exact le_rfl

theorem ite_lt_le_self (a b : Coord) : (if a < b then a else b) ≤ a := by
  split_ifs with h
  · exact le_rfl
  · exact le_of_not_lt h

theorem le_ite_gt (a b : Coord) : b ≤ if a > b then a else b := by
  split_ifs with h
  · exact le_of_lt h
  · exact le_rfl

theorem self_le_ite_gt (a b : Coord) : a ≤ if a > b then a else b := by
  split_ifs with h
  · exact le_rfl
  · exact le_of_not_lt h

namespace Bounds

/-! ### Helper lemmas -/

theorem contains_iff {b : Bounds} {p : Vec2} :
    b.contains p = true ↔
      b.min.x ≤ qc p.x ∧ qc p.x ≤ b.max.x ∧
      b.min.y ≤ qc p.y ∧ qc p.y ≤ b.max.y := by
  simp [Bounds.contains, and_assoc]

theorem clear_eq_empty (b : Bounds) : b.clear = Bounds.empty := rfl

theorem addVertexStep_eq (b : Bounds) (v : Vec2) :
    addVertexStep b v =
      ⟨⟨if qc v.x < b.min.x then qc v.x else b.min.x,
        if qc v.y < b.min.y then qc v.y else b.min.y⟩,
       ⟨if qc v.x > b.max.x then qc v.x else b.max.x,
        if qc v.y > b.max.y then qc v.y else b.max.y⟩⟩ := by
  unfold addVertexStep
  by_cases h1 : qc v.x > b.max.x <;>
    by_cases h2 : qc v.x < b.min.x <;>
      by_cases h3 : qc v.y > b.max.y <;>
        by_cases h4 : qc v.y < b.min.y <;>
          simp [h1, h2, h3, h4]

theorem ext_refl (b : Bounds) : Ext b b :=
  ⟨le_rfl, le_rfl, le_rfl, le_rfl⟩

theorem ext_trans {a b c : Bounds} (h1 : Ext a b) (h2 : Ext b c) : Ext a c :=
  ⟨le_trans h2.1 h1.1, le_trans h2.2.1 h1.2.1,
   le_trans h1.2.2.1 h2.2.2.1, le_trans h1.2.2.2 h2.2.2.2⟩

theorem contains_of_ext {b b2 : Bounds} {p : Vec2} (h : Ext b b2)
    (hp : b.contains p = true) : b2.contains p = true := by
  rw [contains_iff] at hp ⊢
  exact ⟨le_trans h.1 hp.1, le_trans hp.2.1 h.2.2.1,
         le_trans h.2.1 hp.2.2.1, le_trans hp.2.2.2 h.2.2.2⟩

theorem addVertexStep_ext (b : Bounds) (v : Vec2) : Ext b (addVertexStep b v) := by
  rw [addVertexStep_eq]
  exact ⟨ite_lt_le_right _ _, ite_lt_le_right _ _, le_ite_gt _ _, le_ite_gt _ _⟩

theorem foldl_ext (b : Bounds) (V : List Vec2) :
    Ext b (V.foldl addVertexStep b) := by
  induction V generalizing b with
  | nil => exact ext_refl b
  | cons v V ih => exact ext_trans (addVertexStep_ext b v) (ih (addVertexStep b v))

theorem addVertexStep_contains (b : Bounds) (v : Vec2) :
    (addVertexStep b v).contains v = true := by
  rw [addVertexStep_eq, contains_iff]
  exact ⟨ite_lt_le_self _ _, self_le_ite_gt _ _,
         ite_lt_le_self _ _, self_le_ite_gt _ _⟩

theorem foldl_contains_mem {V : List Vec2} {p : Vec2} (hp : p ∈ V) (b : Bounds) :
    (V.foldl addVertexStep b).contains p = true := by
  induction V generalizing b with
  | nil => cases hp
  | cons v V ih =>
    rcases List.mem_cons.1 hp with h | h
    · subst h
      exact contains_of_ext (foldl_ext (addVertexStep b p) V)
        (addVertexStep_contains b p)
    · exact ih h (addVertexStep b v)

theorem addVertexStep_min_x (b : Bounds) (v : Vec2) :
    (addVertexStep b v).min.x = if qc v.x < b.min.x then qc v.x else b.min.x := by
  rw [addVertexStep_eq]

theorem addVertexStep_min_y (b : Bounds) (v : Vec2) :
    (addVertexStep b v).min.y = if qc v.y < b.min.y then qc v.y else b.min.y := by
  rw [addVertexStep_eq]

theorem addVertexStep_max_x (b : Bounds) (v : Vec2) :
    (addVertexStep b v).max.x = if qc v.x > b.max.x then qc v.x else b.max.x := by
  rw [addVertexStep_eq]

theorem addVertexStep_max_y (b : Bounds) (v : Vec2) :
    (addVertexStep b v).max.y = if qc v.y > b.max.y then qc v.y else b.max.y := by
  rw [addVertexStep_eq]

theorem ite_finite {a b : Coord} {qa qb : ℚ} (ha : a = qc qa) (hb : b = qc qb)
    (c : Prop) [Decidable c] : ∃ q, (if c then a else b) = qc q := by
  split_ifs
  · exact ⟨qa, ha⟩
  · exact ⟨qb, hb⟩

theorem addVertexStep_wf {b : Bounds} (h : WF b) (v : Vec2) :
    WF (addVertexStep b v) := by
  rcases h with h | ⟨⟨q1, e1⟩, ⟨q2, e2⟩, ⟨q3, e3⟩, ⟨q4, e4⟩, hx, hy⟩
  · subst h
    right
    rw [addVertexStep_min_x, addVertexStep_min_y,
        addVertexStep_max_x, addVertexStep_max_y]
    refine ⟨?_, ?_, ?_, ?_, ?_, ?_⟩ <;>
      simp [Bounds.empty, qc_lt_top, bot_lt_qc]
  · right
    rw [addVertexStep_min_x, addVertexStep_min_y,
        addVertexStep_max_x, addVertexStep_max_y]
    refine ⟨ite_finite rfl e1 _, ite_finite rfl e2 _,
            ite_finite rfl e3 _, ite_finite rfl e4 _, ?_, ?_⟩
    · exact le_trans (ite_lt_le_right _ _) (le_trans hx (le_ite_gt _ _))
    · exact le_trans (ite_lt_le_right _ _) (le_trans hy (le_ite_gt _ _))

theorem addVertexStep_minimal {b c : Bounds} {v : Vec2} (hwf : WF b)
    (hsub : SubsetOf b c) (hv : c.contains v = true) :
    SubsetOf (addVertexStep b v) c := by
  intro p hp
  rw [contains_iff, addVertexStep_min_x, addVertexStep_min_y,
      addVertexStep_max_x, addVertexStep_max_y] at hp
  rw [contains_iff] at hv ⊢
  rcases hwf with h | ⟨⟨q1, e1⟩, ⟨q2, e2⟩, ⟨q3, e3⟩, ⟨q4, e4⟩, hx, hy⟩
  · subst h
    simp only [Bounds.empty] at hp
    rw [if_pos (qc_lt_top v.x), if_pos (qc_lt_top v.y),
        if_pos (bot_lt_qc v.x), if_pos (bot_lt_qc v.y)] at hp
    have hpx : p.x = v.x := le_antisymm (qc_le_qc.1 hp.2.1) (qc_le_qc.1 hp.1)
    have hpy : p.y = v.y := le_antisymm (qc_le_qc.1 hp.2.2.2) (qc_le_qc.1 hp.2.2.1)
    rw [hpx, hpy]
    exact hv
  · have hc1 : c.contains ⟨q1, q2⟩ = true := by
      apply hsub
      rw [contains_iff]
      refine ⟨le_of_eq e1, ?_, le_of_eq e2, ?_⟩
      · rw [← e1]; exact hx
      · rw [← e2]; exact hy
    have hc2 : c.contains ⟨q3, q4⟩ = true := by
      apply hsub
      rw [contains_iff]
      refine ⟨?_, le_of_eq e3.symm, ?_, le_of_eq e4.symm⟩
      · rw [← e3]; exact hx
      · rw [← e4]; exact hy
    rw [contains_iff] at hc1 hc2
    obtain ⟨hp1, hp2, hp3, hp4⟩ := hp
    refine ⟨le_trans ?_ hp1, le_trans hp2 ?_, le_trans ?_ hp3, le_trans hp4 ?_⟩
    · split_ifs with h
      · exact hv.1
      · rw [e1]; exact hc1.1
    · split_ifs with h
      · exact hv.2.1
      · rw [e3]; exact hc2.2.1
    · split_ifs with h
      · exact hv.2.2.1
      · rw [e2]; exact hc1.2.2.1
    · split_ifs with h
      · exact hv.2.2.2
      · rw [e4]; exact hc2.2.2.2

theorem foldl_minimal {c : Bounds} (V : List Vec2) :
    ∀ b : Bounds, WF b → SubsetOf b c → (∀ v ∈ V, c.contains v = true) →
      SubsetOf (V.foldl addVertexStep b) c := by
  induction V with
  | nil =>
    intro b _ hsub _
    simpa using hsub
  | cons v V ih =>
    intro b hwf hsub hall
    simp only [List.foldl_cons]
    exact ih (addVertexStep b v) (addVertexStep_wf hwf v)
      (addVertexStep_minimal hwf hsub (hall v (List.mem_cons_self v V)))
      (fun u hu => hall u (List.mem_cons_of_mem v hu))

theorem add_false_eq (b : Bounds) (V : List Vec2) :
    b.add V false = V.foldl addVertexStep b := rfl

theorem add_true_eq (b : Bounds) (V : List Vec2) :
    b.add V true = V.foldl addVertexStep Bounds.empty := rfl

end Bounds

namespace Bounds

theorem addBounds_eq (self bounds : Bounds) (c : Bool) :
    self.addBounds bounds c =
      ⟨⟨if bounds.min.x < (if c = true then self.clear else self).min.x
           then bounds.min.x else (if c = true then self.clear else self).min.x,
        if bounds.min.y < (if c = true then self.clear else self).min.y
           then bounds.max.y else (if c = true then self.clear else self).min.y⟩,
       ⟨if bounds.max.x > (if c = true then self.clear else self).max.x
           then bounds.max.x else (if c = true then self.clear else self).max.x,
        if bounds.max.y > (if c = true then self.clear else self).max.y
           then bounds.max.y else (if c = true then self.clear else self).max.y⟩⟩ := by
  cases c
  · unfold Bounds.addBounds
    by_cases h1 : bounds.max.x > self.max.x <;>
      by_cases h2 : bounds.min.x < self.min.x <;>
        by_cases h3 : bounds.max.y > self.max.y <;>
          by_cases h4 : bounds.min.y < self.min.y <;>
            simp [h1, h2, h3, h4]
  · unfold Bounds.addBounds
    by_cases h1 : bounds.max.x > (⊥ : Coord) <;>
      by_cases h2 : bounds.min.x < (⊤ : Coord) <;>
        by_cases h3 : bounds.max.y > (⊥ : Coord) <;>
          by_cases h4 : bounds.min.y < (⊤ : Coord) <;>
            simp [Bounds.clear, Bounds.setMinMax, h1, h2, h3, h4]

end Bounds

namespace Bounds

/-! ### Claim theorems -/

/-- C1: in `addBounds(bounds, clear)`, whenever `bounds.min.y < this.min.y`
holds at the time of the min.y check, the method assigns
`this.min.y = bounds.max.y` (comparing against min but assigning max),
while the x axis assigns `this.min.x = bounds.min.x` when
`bounds.min.x < this.min.x`. -/
theorem addBounds_min_y_asymmetry (self bounds : Bounds) (c : Bool) :
    (bounds.min.y < (if c = true then self.clear else self).min.y →
      (self.addBounds bounds c).min.y = bounds.max.y) ∧
    (bounds.min.x < (if c = true then self.clear else self).min.x →
      (self.addBounds bounds c).min.x = bounds.min.x) := by
  constructor
  · intro h
    rw [addBounds_eq]
    exact if_pos h
  · intro h
    rw [addBounds_eq]
    exact if_pos h

/-- Witness for C1 at a concrete input: receiver [0,1]x[0,1], argument
[-1,2]x[-1,2], clear = false; both guards hold and min.y becomes the
argument's max.y = 2 while min.x becomes the argument's min.x = -1. -/
theorem addBounds_min_y_asymmetry_witness :
    ((⟨⟨qc (-1), qc (-1)⟩, ⟨qc 2, qc 2⟩⟩ : Bounds).min.y
        < (if (false = true)
            then (⟨⟨qc 0, qc 0⟩, ⟨qc 1, qc 1⟩⟩ : Bounds).clear
            else (⟨⟨qc 0, qc 0⟩, ⟨qc 1, qc 1⟩⟩ : Bounds)).min.y) ∧
    ((⟨⟨qc (-1), qc (-1)⟩, ⟨qc 2, qc 2⟩⟩ : Bounds).min.x
        < (if (false = true)
            then (⟨⟨qc 0, qc 0⟩, ⟨qc 1, qc 1⟩⟩ : Bounds).clear
            else (⟨⟨qc 0, qc 0⟩, ⟨qc 1, qc 1⟩⟩ : Bounds)).min.x) ∧
    ((⟨⟨qc 0, qc 0⟩, ⟨qc 1, qc 1⟩⟩ : Bounds).addBounds
        ⟨⟨qc (-1), qc (-1)⟩, ⟨qc 2, qc 2⟩⟩ false).min.y = qc 2 ∧
    ((⟨⟨qc 0, qc 0⟩, ⟨qc 1, qc 1⟩⟩ : Bounds).addBounds
        ⟨⟨qc (-1), qc (-1)⟩, ⟨qc 2, qc 2⟩⟩ false).min.x = qc (-1) :=
  ⟨by decide, by decide,
   (addBounds_min_y_asymmetry ⟨⟨qc 0, qc 0⟩, ⟨qc 1, qc 1⟩⟩
      ⟨⟨qc (-1), qc (-1)⟩, ⟨qc 2, qc 2⟩⟩ false).1 (by decide),
   (addBounds_min_y_asymmetry ⟨⟨qc 0, qc 0⟩, ⟨qc 1, qc 1⟩⟩
      ⟨⟨qc (-1), qc (-1)⟩, ⟨qc 2, qc 2⟩⟩ false).2 (by decide)⟩

end Bounds

namespace Bounds

/-- C2: after `add(V, clear)`, the bounds is the smallest axis-aligned box
containing the union of the previous content (when not cleared) and the
points of V: the new bounds contains every previously contained point and
every vertex of V, and any bounds containing all of those contains every
point of the new bounds.  When V is empty: no-op if not cleared, the
infinite sentinel if cleared.  The previous state is assumed to satisfy
the spec's data-model invariant (empty sentinel, or finite with
min ≤ max). -/
theorem add_smallest_enclosing (b : Bounds) (V : List Vec2) (hwf : Bounds.WF b) :
    (∀ p : Vec2, b.contains p = true → (b.add V false).contains p = true) ∧
    (∀ p ∈ V, (b.add V false).contains p = true) ∧
    (∀ c : Bounds,
      (∀ p : Vec2, b.contains p = true → c.contains p = true) →
      (∀ p ∈ V, c.contains p = true) →
      ∀ p : Vec2, (b.add V false).contains p = true → c.contains p = true) ∧
    (V = [] → b.add V false = b ∧ b.add V true = Bounds.empty) := by
  refine ⟨?_, ?_, ?_, ?_⟩
  · intro p hp
    rw [add_false_eq]
    exact contains_of_ext (foldl_ext b V) hp
  · intro p hp
    rw [add_false_eq]
    exact foldl_contains_mem hp b
  · intro c hsub hall p hp
    rw [add_false_eq] at hp
    exact foldl_minimal V b hwf hsub hall p hp
  · rintro rfl
    exact ⟨rfl, rfl⟩

/-- Witness for C2 at the empty sentinel and the vertex list [(0,0)]. -/
theorem add_smallest_enclosing_witness :
    Bounds.WF Bounds.empty ∧
    ((∀ p : Vec2, Bounds.empty.contains p = true →
        (Bounds.empty.add [⟨0, 0⟩] false).contains p = true) ∧
     (∀ p ∈ [(⟨0, 0⟩ : Vec2)],
        (Bounds.empty.add [⟨0, 0⟩] false).contains p = true) ∧
     (∀ c : Bounds,
        (∀ p : Vec2, Bounds.empty.contains p = true → c.contains p = true) →
        (∀ p ∈ [(⟨0, 0⟩ : Vec2)], c.contains p = true) →
        ∀ p : Vec2,
          (Bounds.empty.add [⟨0, 0⟩] false).contains p = true →
            c.contains p = true) ∧
     ([(⟨0, 0⟩ : Vec2)] = [] →
        Bounds.empty.add [⟨0, 0⟩] false = Bounds.empty ∧
        Bounds.empty.add [⟨0, 0⟩] true = Bounds.empty)) :=
  ⟨Or.inl rfl, add_smallest_enclosing Bounds.empty [⟨0, 0⟩] (Or.inl rfl)⟩

/-- C3: constructing an empty bounds, calling `update(V)`, and then
`contains(p)` returns true for every `p` in `V`. -/
theorem update_contains_of_mem (V : List Vec2) (p : Vec2) (hp : p ∈ V) :
    (Bounds.empty.update V).contains p = true :=
  foldl_contains_mem hp Bounds.empty

/-- Witness for C3: V = [(1,2)] and p = (1,2). -/
theorem update_contains_of_mem_witness :
    (⟨1, 2⟩ : Vec2) ∈ [(⟨1, 2⟩ : Vec2)] ∧
    (Bounds.empty.update [⟨1, 2⟩]).contains ⟨1, 2⟩ = true :=
  ⟨by decide, update_contains_of_mem [⟨1, 2⟩] ⟨1, 2⟩ (by decide)⟩

/-- C4: `overlaps` is symmetric for every pair of bounds. -/
theorem overlaps_symm (a b : Bounds) : a.overlaps b = b.overlaps a := by
  rw [Bool.eq_iff_iff]
  simp only [Bounds.overlaps, Bool.and_eq_true, decide_eq_true_eq, ge_iff_le]
  tauto

/-- C5: `contains(p)` returns true iff `min.x ≤ p.x ≤ max.x` and
`min.y ≤ p.y ≤ max.y`, with closed intervals on both axes. -/
theorem contains_closed_intervals (b : Bounds) (p : Vec2) :
    b.contains p = true ↔
      (b.min.x ≤ qc p.x ∧ qc p.x ≤ b.max.x) ∧
      (b.min.y ≤ qc p.y ∧ qc p.y ≤ b.max.y) := by
  rw [contains_iff]
  tauto

/-- C6: after `clear()`, `contains(p)` is false for every finite point. -/
theorem clear_contains_false (b : Bounds) (p : Vec2) :
    (b.clear).contains p = false := by
  rw [clear_eq_empty]
  simp [Bounds.contains, Bounds.empty, not_top_le_qc, qc_ne_top, qc_ne_bot]

end Bounds

theorem coord_add_neg {a : Coord} {r : ℚ} (e : a = qc r) {q : ℚ} :
    a + qc q + qc (-q) = a := by
  rw [e, qc_add, qc_add, add_neg_cancel_right]

namespace Bounds

/-- C7: for a bounds with finite coordinates, `translate(v)` followed by
`translate(-v)` restores the original min and max exactly (the embedding
uses exact rational arithmetic). -/
theorem translate_roundtrip (b : Bounds) (v : Vec2) (hf : Bounds.AllFinite b) :
    (b.translate v).translate ⟨-v.x, -v.y⟩ = b := by
  obtain ⟨⟨q1, e1⟩, ⟨q2, e2⟩, ⟨q3, e3⟩, ⟨q4, e4⟩⟩ := hf
  show Bounds.mk
      ⟨b.min.x + qc v.x + qc (-v.x), b.min.y + qc v.y + qc (-v.y)⟩
      ⟨b.max.x + qc v.x + qc (-v.x), b.max.y + qc v.y + qc (-v.y)⟩ = b
  rw [coord_add_neg e1, coord_add_neg e2, coord_add_neg e3, coord_add_neg e4]

/-- Witness for C7 at the box [0,1]x[0,1] and the vector (2,3). -/
theorem translate_roundtrip_witness :
    Bounds.AllFinite ⟨⟨qc 0, qc 0⟩, ⟨qc 1, qc 1⟩⟩ ∧
    (((⟨⟨qc 0, qc 0⟩, ⟨qc 1, qc 1⟩⟩ : Bounds).translate ⟨2, 3⟩).translate
        ⟨-2, -3⟩ = (⟨⟨qc 0, qc 0⟩, ⟨qc 1, qc 1⟩⟩ : Bounds)) :=
  ⟨⟨⟨0, rfl⟩, ⟨0, rfl⟩, ⟨1, rfl⟩, ⟨1, rfl⟩⟩,
   translate_roundtrip ⟨⟨qc 0, qc 0⟩, ⟨qc 1, qc 1⟩⟩ ⟨2, 3⟩
     ⟨⟨0, rfl⟩, ⟨0, rfl⟩, ⟨1, rfl⟩, ⟨1, rfl⟩⟩⟩

/-- C8: setting width (resp. height) to v leaves min untouched and the
other axis's max untouched, and sets max.x = min.x + v (resp.
max.y = min.y + v); with min=(0,0), max=(2,2), setting width=5 gives
max.x = 5 and min.x = 0. -/
theorem setWidth_setHeight_spec (b : Bounds) (v : ℚ) :
    (b.setWidth v).min = b.min ∧
    (b.setWidth v).max.x = b.min.x + qc v ∧
    (b.setWidth v).max.y = b.max.y ∧
    (b.setHeight v).min = b.min ∧
    (b.setHeight v).max.y = b.min.y + qc v ∧
    (b.setHeight v).max.x = b.max.x ∧
    ((⟨⟨qc 0, qc 0⟩, ⟨qc 2, qc 2⟩⟩ : Bounds).setWidth 5).max.x = qc 5 ∧
    ((⟨⟨qc 0, qc 0⟩, ⟨qc 2, qc 2⟩⟩ : Bounds).setWidth 5).min.x = qc 0 := by
  refine ⟨rfl, rfl, rfl, rfl, rfl, rfl, ?_, rfl⟩
  show qc 0 + qc 5 = qc 5
  rw [qc_add]
  norm_num

/-- C9: for a bounds b with all four corner coordinates finite,
`addBounds(b, clear = true)` on any receiver yields
min = (b.min.x, b.max.y) and max = (b.max.x, b.max.y): the clearing
merge-copy collapses the y extent to zero height at b.max.y. -/
theorem addBounds_clear_collapse (self b : Bounds) (hf : Bounds.AllFinite b) :
    (self.addBounds b true).min.x = b.min.x ∧
    (self.addBounds b true).min.y = b.max.y ∧
    (self.addBounds b true).max.x = b.max.x ∧
    (self.addBounds b true).max.y = b.max.y := by
  obtain ⟨⟨q1, e1⟩, ⟨q2, e2⟩, ⟨q3, e3⟩, ⟨q4, e4⟩⟩ := hf
  rw [addBounds_eq]
  refine ⟨?_, ?_, ?_, ?_⟩
  · exact if_pos (show b.min.x < (⊤ : Coord) by rw [e1]; exact qc_lt_top q1)
  · exact if_pos (show b.min.y < (⊤ : Coord) by rw [e2]; exact qc_lt_top q2)
  · exact if_pos (show b.max.x > (⊥ : Coord) by rw [e3]; exact bot_lt_qc q3)
  · exact if_pos (show b.max.y > (⊥ : Coord) by rw [e4]; exact bot_lt_qc q4)

/-- Witness for C9: receiver [0,1]x[0,1], argument [-1,3]x[-2,4]; the
result has min = (-1, 4) and max = (3, 4). -/
theorem addBounds_clear_collapse_witness :
    Bounds.AllFinite ⟨⟨qc (-1), qc (-2)⟩, ⟨qc 3, qc 4⟩⟩ ∧
    (((⟨⟨qc 0, qc 0⟩, ⟨qc 1, qc 1⟩⟩ : Bounds).addBounds
        ⟨⟨qc (-1), qc (-2)⟩, ⟨qc 3, qc 4⟩⟩ true).min.x = qc (-1) ∧
     ((⟨⟨qc 0, qc 0⟩, ⟨qc 1, qc 1⟩⟩ : Bounds).addBounds
        ⟨⟨qc (-1), qc (-2)⟩, ⟨qc 3, qc 4⟩⟩ true).min.y = qc 4 ∧
     ((⟨⟨qc 0, qc 0⟩, ⟨qc 1, qc 1⟩⟩ : Bounds).addBounds
        ⟨⟨qc (-1), qc (-2)⟩, ⟨qc 3, qc 4⟩⟩ true).max.x = qc 3 ∧
     ((⟨⟨qc 0, qc 0⟩, ⟨qc 1, qc 1⟩⟩ : Bounds).addBounds
        ⟨⟨qc (-1), qc (-2)⟩, ⟨qc 3, qc 4⟩⟩ true).max.y = qc 4) :=
  ⟨⟨⟨-1, rfl⟩, ⟨-2, rfl⟩, ⟨3, rfl⟩, ⟨4, rfl⟩⟩,
   addBounds_clear_collapse ⟨⟨qc 0, qc 0⟩, ⟨qc 1, qc 1⟩⟩
     ⟨⟨qc (-1), qc (-2)⟩, ⟨qc 3, qc 4⟩⟩
     ⟨⟨-1, rfl⟩, ⟨-2, rfl⟩, ⟨3, rfl⟩, ⟨4, rfl⟩⟩⟩

/-- C10: the empty sentinel never overlaps a bounds whose corner
coordinates are all finite, in either direction. -/
theorem empty_overlaps_finite_false (b : Bounds) (hf : Bounds.AllFinite b) :
    Bounds.empty.overlaps b = false ∧ b.overlaps Bounds.empty = false := by
  obtain ⟨⟨q1, e1⟩, _, ⟨q3, e3⟩, _⟩ := hf
  constructor
  · simp [Bounds.overlaps, Bounds.empty, e3, not_top_le_qc, qc_ne_top]
  · simp [Bounds.overlaps, Bounds.empty, e1, not_qc_le_bot, qc_ne_bot]

/-- Witness for C10 at the finite box [0,1]x[0,1]. -/
theorem empty_overlaps_finite_false_witness :
    Bounds.AllFinite ⟨⟨qc 0, qc 0⟩, ⟨qc 1, qc 1⟩⟩ ∧
    (Bounds.empty.overlaps ⟨⟨qc 0, qc 0⟩, ⟨qc 1, qc 1⟩⟩ = false ∧
     (⟨⟨qc 0, qc 0⟩, ⟨qc 1, qc 1⟩⟩ : Bounds).overlaps Bounds.empty = false) :=
  ⟨⟨⟨0, rfl⟩, ⟨0, rfl⟩, ⟨1, rfl⟩, ⟨1, rfl⟩⟩,
   empty_overlaps_finite_false ⟨⟨qc 0, qc 0⟩, ⟨qc 1, qc 1⟩⟩
     ⟨⟨0, rfl⟩, ⟨0, rfl⟩, ⟨1, rfl⟩, ⟨1, rfl⟩⟩⟩

end Bounds

namespace Bounds

/-- Counterexample to C2 as literally stated over every bounds state: the
state min=(5,0), max=(0,0) (reachable via setMinMax, which performs no
validation) has empty content, yet add([(10,0)], false) keeps min.x = 5,
producing the box [5,10]x[0,0], which contains the point (7,0) even though
the box [10,10]x[0,0] contains the whole union (the empty previous content
plus the single vertex (10,0)) and does not contain (7,0) — so the result
is not the smallest enclosing box. -/
theorem add_smallest_enclosing_cex :
    (∀ p : Vec2, (⟨⟨qc 5, qc 0⟩, ⟨qc 0, qc 0⟩⟩ : Bounds).contains p = false) ∧
    ((⟨⟨qc 5, qc 0⟩, ⟨qc 0, qc 0⟩⟩ : Bounds).add [⟨10, 0⟩] false)
      = ⟨⟨qc 5, qc 0⟩, ⟨qc 10, qc 0⟩⟩ ∧
    ((⟨⟨qc 5, qc 0⟩, ⟨qc 0, qc 0⟩⟩ : Bounds).add [⟨10, 0⟩] false).contains
      ⟨7, 0⟩ = true ∧
    (⟨⟨qc 10, qc 0⟩, ⟨qc 10, qc 0⟩⟩ : Bounds).contains ⟨10, 0⟩ = true ∧
    (⟨⟨qc 10, qc 0⟩, ⟨qc 10, qc 0⟩⟩ : Bounds).contains ⟨7, 0⟩ = false := by
  refine ⟨?_, by decide, by decide, by decide, by decide⟩
  intro p
  rw [Bool.eq_false_iff]
  intro h
  rw [contains_iff] at h
  have h5 : (5 : ℚ) ≤ 0 := qc_le_qc.1 (le_trans h.1 h.2.1)
  exact absurd h5 (by norm_num)

end Bounds
